import Mathlib

/-!
# Verification of `tiny-ss` (Shamir secret sharing over `Z/pZ`)

Shallow embedding of `src/lib.rs`.  Rust `BigInt` is modelled as `Int`;
Rust `usize` as `Nat` (with the checked/wrapping subtraction modelled
explicitly where underflow matters); `Vec` as `List`.  Rust's `%` and `/`
on `BigInt` truncate toward zero, hence `Int.tmod` / `Int.tdiv`.

Fatal assertions (`assert!`) are modelled as `Option`/`Except` failure.
The `while` loop of `xgcd` is modelled with an explicit fuel parameter
(one `Nat` larger than the number of iterations the loop can make, which
is finite because `|rj|` strictly decreases); with adequate fuel the
fuel-exhaustion branch is unreachable, and all theorems below are proved
with the fuel supplied by `xgcd` itself.

The ambient random source consumed by `thread_rng` is modelled as a draw
stream `draws : Nat → Nat`.  `gen_bigint_range` is modelled from the spec:
§6 of the specification states the generator produces uniform big integers
in an arbitrary half-open range `[low, high)`; its image over all draws is
exactly `[low, high)`.
-/

/-- Rust `usize` subtraction, debug semantics: underflow is a panic. -/
def usize_sub (a b : Nat) : Option Nat :=
  if b ≤ a then some (a - b) else none

/-- Rust `usize` subtraction, release semantics: wraparound modulo `2^64`. -/
def usize_wrap_sub (a b : Nat) : Nat :=
  (2 ^ 64 + a - b) % 2 ^ 64

/-- Rust `x as i64` for `x : usize`: two's-complement truncation into
`[-2^63, 2^63)`.  Used in `lagrange_interpolation`. -/
def as_i64 (x : Nat) : Int :=
  ((x : Int) + 2 ^ 63) % 2 ^ 64 - 2 ^ 63

/-- Modelled from the spec (§6): the random generator draws uniformly from
the half-open range `[low, high)`; the abstract draw is reduced into the
range, so that the image over all draws is exactly `[low, high)`. -/
def gen_bigint_range (low high : Int) (draw : Nat) : Int :=
  low + (draw : Int) % (high - low)

/-- Loop body of `SecretShare::xgcd`, with fuel.  State: Bezout rows
`(sj, sj_last)`, `(tj, tj_last)` and remainders `(rj, rj_last)`, exactly
as in the source; each iteration subtracts `quotient * current` from the
`last` triple and swaps. -/
def xgcdLoop : Nat → Int → Int → Int → Int → Int → Int → Int × Int × Int
  | 0, _, sjl, _, tjl, _, rjl => (rjl, sjl, tjl)
  | fuel + 1, sj, sjl, tj, tjl, rj, rjl =>
    if rj = 0 then (rjl, sjl, tjl)
    else
      let q := rjl.tdiv rj
      xgcdLoop fuel (sjl - q * sj) sj (tjl - q * tj) tj (rjl - q * rj) rj

/-- `SecretShare::xgcd(a, b)`: iterative extended Euclidean algorithm,
returning `(g, x, y)` with `x*a + y*b = g`.  Initial state
`(sj, sj_last) = (0, 1)`, `(tj, tj_last) = (1, 0)`, `(rj, rj_last) = (b, a)`. -/
def xgcd (a b : Int) : Int × Int × Int :=
  xgcdLoop (b.natAbs + a.natAbs + 1) 0 1 1 0 b a

/-- The scheme configuration: threshold `t`, share count `n`, prime `p`. -/
structure SecretShare where
  t : Nat
  n : Nat
  p : Int

/-- The two fatal contract failures of `recover`: the `"wrong shares"`
length assertion and the `assert!(g.is_one())` inside `mod_inv`. -/
inductive RecoverError where
  | wrongShares : RecoverError
  | gcdNotOne : RecoverError
deriving DecidableEq

namespace SecretShare

/-- `SecretShare::sample_polynomial`: `[secret, r1, ..., r(t-1)]` with the
`ri` drawn by `gen_bigint_range(0, p - 1)`.  The `0..(self.t - 1)` range
uses `usize` subtraction, which underflows when `t = 0`. -/
def sample_polynomial (ss : SecretShare) (secret : Int) (draws : Nat → Nat) :
    Option (List Int) :=
  (usize_sub ss.t 1).map fun k =>
    secret :: (List.range k).map fun i => gen_bigint_range 0 (ss.p - 1) (draws i)

/-- `SecretShare::mod_evaluate_at`: Horner fold over the reversed
coefficient list, `sum ↦ (x * sum + item) % p`. -/
def mod_evaluate_at (ss : SecretShare) (polynomial : List Int) (x : Nat) : Int :=
  polynomial.reverse.foldl (fun sum item => ((x : Int) * sum + item).tmod ss.p) 0

/-- `SecretShare::evaluate_polynomial`: shares `(x, f(x) mod p)` for
`x` in `1..=n`. -/
def evaluate_polynomial (ss : SecretShare) (polynomial : List Int) :
    List (Nat × Int) :=
  (List.range' 1 ss.n).map fun x => (x, ss.mod_evaluate_at polynomial x)

/-- `SecretShare::split`: asserts `t < n`, samples, evaluates. -/
def split (ss : SecretShare) (secret : Int) (draws : Nat → Nat) :
    Option (List (Nat × Int)) :=
  if ss.t < ss.n then (ss.sample_polynomial secret draws).map ss.evaluate_polynomial
  else none

/-- `SecretShare::mod_inv`: adds `p` once if the argument is negative,
runs `xgcd`, asserts the gcd is one, and normalizes the Bezout
coefficient as `(x + p) % p`. -/
def mod_inv (ss : SecretShare) (a : Int) : Option Int :=
  let num := if a < 0 then a + ss.p else a
  let g := (xgcd num ss.p).1
  let x := (xgcd num ss.p).2.1
  if g = 1 then some ((x + ss.p).tmod ss.p) else none

/-- One numerator/denominator product of `lagrange_interpolation`: the
fold over `0..len` that skips `i == item` and otherwise multiplies by
`f i` and reduces with `% p`. -/
def prodTerm (ss : SecretShare) (f : Nat → Int) (item len : Nat) : Int :=
  (List.range len).foldl
    (fun product i => if i = item then product else (product * f i).tmod ss.p) 1

/-- The node map of `lagrange_interpolation`: `xs_bigint[i]`, i.e. the
`usize` node cast through `i64` into a big integer. -/
def nodeOf (xs : List Nat) (i : Nat) : Int :=
  as_i64 (xs.getD i 0)

/-- The denominator of one Lagrange term. -/
def denomTerm (ss : SecretShare) (xs : List Nat) (item : Nat) : Int :=
  ss.prodTerm (fun i => nodeOf xs item - nodeOf xs i) item xs.length

/-- The numerator of one Lagrange term (at evaluation point `x`). -/
def numerTerm (ss : SecretShare) (x : Int) (xs : List Nat) (item : Nat) : Int :=
  ss.prodTerm (fun i => x - nodeOf xs i) item xs.length

/-- One iteration of the accumulating fold of `lagrange_interpolation`:
`sum ↦ (sum + numerator * mod_inv(denominator) * ys[item]) % p`, with the
`mod_inv` assertion failure aborting the whole computation. -/
def lagrangeStep (ss : SecretShare) (x : Int) (xs : List Nat) (ys : List Int)
    (sum? : Option Int) (item : Nat) : Option Int :=
  sum?.bind fun sum =>
    (ss.mod_inv (ss.denomTerm xs item)).map fun inv =>
      (sum + ss.numerTerm x xs item * inv * ys.getD item 0).tmod ss.p

/-- `SecretShare::lagrange_interpolation` evaluated at `x`: the fold of
`lagrangeStep` over `item` in `0..len`. -/
def lagrange_interpolation (ss : SecretShare) (x : Int) (xs : List Nat)
    (ys : List Int) : Option Int :=
  (List.range xs.length).foldl (ss.lagrangeStep x xs ys) (some 0)

/-- `SecretShare::recover`: asserts `shares.len() == t` (`"wrong shares"`),
unzips, interpolates at `x = 0`, and adds `p` once if the raw result is
negative. -/
def recover (ss : SecretShare) (shares : List (Nat × Int)) :
    Except RecoverError Int :=
  if shares.length = ss.t then
    match ss.lagrange_interpolation 0 (shares.map Prod.fst) (shares.map Prod.snd) with
    | some result => .ok (if result < 0 then result + ss.p else result)
    | none => .error .gcdNotOne
  else .error .wrongShares

end SecretShare

/-- Reference polynomial evaluation, written from the spec's words:
`(a0 + a1*x + ... + a(t-1)*x^(t-1)) mod p`. -/
def polyRefSum (c : List Int) (x : Int) : Int :=
  ((List.range c.length).map fun i => c.getD i 0 * x ^ i).sum

/-! ## Basic facts about truncated division and modulus -/

theorem neg_tmod_left (a b : Int) : (-a).tmod b = -(a.tmod b) := by
  rw [Int.tmod_def, Int.tmod_def, Int.neg_tdiv]
  ring

theorem tmod_lower {p : Int} (hp : 0 < p) (a : Int) : -p < a.tmod p := by
  rcases le_or_lt 0 a with ha | ha
  · have h0 : 0 ≤ a.tmod p := Int.tmod_nonneg p ha
    linarith
  · have h1 : (-a).tmod p < p := Int.tmod_lt_of_pos _ hp
    have h2 : (-a).tmod p = -(a.tmod p) := neg_tmod_left a p
    linarith

theorem tmod_upper {p : Int} (hp : 0 < p) (a : Int) : a.tmod p < p :=
  Int.tmod_lt_of_pos a hp

theorem dvd_sub_tmod (a p : Int) : p ∣ (a - a.tmod p) := by
  rw [Int.tmod_def]
  exact ⟨a.tdiv p, by ring⟩

/-- Common divisors are preserved by one Euclidean step. -/
theorem gcd_sub_mul (a b q : Int) : Int.gcd b (a - q * b) = Int.gcd a b := by
  apply Nat.dvd_antisymm
  · apply Int.natCast_dvd_natCast.mp
    apply Int.dvd_gcd
    · have h1 : (↑(Int.gcd b (a - q * b)) : Int) ∣ b := Int.gcd_dvd_left
      have h2 : (↑(Int.gcd b (a - q * b)) : Int) ∣ (a - q * b) := Int.gcd_dvd_right
      have h3 : (↑(Int.gcd b (a - q * b)) : Int) ∣ ((a - q * b) + q * b) :=
        dvd_add h2 (Dvd.dvd.mul_left h1 q)
      simpa using h3
    · exact Int.gcd_dvd_left
  · apply Int.natCast_dvd_natCast.mp
    apply Int.dvd_gcd
    · exact Int.gcd_dvd_right
    · have h1 : (↑(Int.gcd a b) : Int) ∣ a := Int.gcd_dvd_left
      have h2 : (↑(Int.gcd a b) : Int) ∣ b := Int.gcd_dvd_right
      exact dvd_sub h1 (Dvd.dvd.mul_left h2 q)

/-- Magnitude growth of the Bezout coefficients: with opposite signs and a
positive quotient, one Euclidean update cannot shrink the coefficient. -/
theorem natAbs_step_ge {sj sjl q : Int} (hq : 1 ≤ q) (hs : sj * sjl ≤ 0) :
    sj.natAbs ≤ (sjl - q * sj).natAbs := by
  have habs : |sj| ≤ |sjl - q * sj| := by
    rcases mul_nonpos_iff.mp hs with ⟨h1, h2⟩ | ⟨h1, h2⟩
    · -- 0 ≤ sj, sjl ≤ 0
      have hq' : sj ≤ q * sj := le_mul_of_one_le_left h1 hq
      rw [abs_of_nonneg h1, abs_of_nonpos (by linarith)]
      linarith
    · -- sj ≤ 0, 0 ≤ sjl
      have hq' : q * sj ≤ sj := by nlinarith
      rw [abs_of_nonpos h1, abs_of_nonneg (by linarith)]
      linarith
  rw [Int.abs_eq_natAbs, Int.abs_eq_natAbs] at habs
  exact_mod_cast habs

/-! ## Correctness of the extended Euclidean loop -/

/-- Loop invariant of `xgcdLoop` relative to the original inputs `A`, `B`:
both rows are Bezout combinations, the remainders are ordered and
non-negative, the `s`-coefficients alternate in sign with non-decreasing
magnitude, the row determinant is `±1`, and the remainder pair keeps the
gcd of the inputs. -/
def XgcdInv (A B sj sjl tj tjl rj rjl : Int) : Prop :=
  sj * A + tj * B = rj ∧ sjl * A + tjl * B = rjl ∧
  0 ≤ rj ∧ rj < rjl ∧
  sj * sjl ≤ 0 ∧ sjl.natAbs ≤ sj.natAbs ∧
  (sj * tjl - sjl * tj = 1 ∨ sj * tjl - sjl * tj = -1) ∧
  Int.gcd rjl rj = Int.gcd A B

theorem xgcd_exit {A B sj sjl tj tjl rjl : Int} (hB : 0 < B)
    (hinv : XgcdInv A B sj sjl tj tjl 0 rjl) :
    rjl = (Int.gcd A B : Int) ∧ sjl * A + tjl * B = rjl ∧
    sjl.natAbs * Int.gcd A B ≤ B.natAbs := by
  obtain ⟨hb1, hb2, _, hlt, hsign, habs, hdet, hgcd⟩ := hinv
  have hg : (Int.gcd A B : Int) = rjl := by
    rw [← hgcd, Int.gcd_zero_right, Int.natAbs_of_nonneg (le_of_lt hlt)]
  have hgpos : 0 < Int.gcd A B := by
    have h0 : (0 : Int) < (Int.gcd A B : Int) := hg ▸ hlt
    exact_mod_cast h0
  have hgZne : (↑(Int.gcd A B) : Int) ≠ 0 := by
    exact_mod_cast Nat.pos_iff_ne_zero.mp hgpos
  set g := Int.gcd A B with hgdef
  obtain ⟨A1, hA1⟩ : (↑g : Int) ∣ A := Int.gcd_dvd_left
  obtain ⟨B1, hB1⟩ : (↑g : Int) ∣ B := Int.gcd_dvd_right
  have hB1ne : B1 ≠ 0 := by
    intro h
    rw [h, mul_zero] at hB1
    exact absurd hB1 (ne_of_gt hB)
  have hcop : Int.gcd A1 B1 = 1 := by
    have h1 : Int.gcd (↑g * A1) (↑g * B1) =
        (↑g : Int).natAbs * Int.gcd A1 B1 := Int.gcd_mul_left _ _ _
    rw [← hA1, ← hB1, Int.natAbs_ofNat] at h1
    exact (Nat.eq_of_mul_eq_mul_left hgpos (by rw [mul_one, ← h1])).symm
  have h3 : sj * A1 + tj * B1 = 0 := by
    have h2 : (↑g : Int) * (sj * A1 + tj * B1) = 0 := by
      have hb1' := hb1
      rw [hA1, hB1] at hb1'
      linear_combination hb1'
    rcases mul_eq_zero.mp h2 with h | h
    · exact absurd h hgZne
    · exact h
  have hkey : sj * A1 = -(tj * B1) := by linarith
  obtain ⟨k, hk⟩ : B1 ∣ sj := by
    apply @Int.dvd_of_dvd_mul_left_of_gcd_one B1 sj A1
    · rw [hkey]
      exact dvd_neg.mpr (dvd_mul_left B1 tj)
    · rw [Int.gcd_comm]
      exact hcop
  have htj : tj = -(A1 * k) := by
    have h4 : B1 * (k * A1) = B1 * (-tj) := by
      rw [hk] at hkey
      linear_combination hkey
    have h5 := mul_left_cancel₀ hB1ne h4
    linarith
  have hdet1 : Int.gcd sj tj = 1 := by
    have hd1 : (↑(Int.gcd sj tj) : Int) ∣ sj := Int.gcd_dvd_left
    have hd2 : (↑(Int.gcd sj tj) : Int) ∣ tj := Int.gcd_dvd_right
    have hd3 : (↑(Int.gcd sj tj) : Int) ∣ sj * tjl - sjl * tj :=
      dvd_sub (hd1.mul_right tjl) (hd2.mul_left sjl)
    have hd4 : (↑(Int.gcd sj tj) : Int) ∣ 1 := by
      rcases hdet with h | h
      · rwa [h] at hd3
      · rw [h] at hd3
        rw [show (-1 : Int) = -(1 : Int) from rfl] at hd3
        exact dvd_neg.mp hd3
    have hd5 := Int.eq_one_of_dvd_one (Int.ofNat_nonneg _) hd4
    exact_mod_cast hd5
  have hk1 : k.natAbs = 1 := by
    have h6 : Int.gcd sj tj = Int.gcd B1 A1 * k.natAbs := by
      rw [hk, htj, Int.gcd_def, Int.natAbs_neg, Int.natAbs_mul, Int.natAbs_mul,
        mul_comm A1.natAbs k.natAbs, mul_comm B1.natAbs k.natAbs, Nat.gcd_mul_left,
        Int.gcd_def, mul_comm]
    rw [hdet1, Int.gcd_comm B1 A1, hcop, one_mul] at h6
    exact h6.symm
  have hsjabs : sj.natAbs = B1.natAbs := by
    rw [hk, Int.natAbs_mul, hk1, mul_one]
  have hBabs : B.natAbs = g * B1.natAbs := by
    rw [hB1, Int.natAbs_mul, Int.natAbs_ofNat]
  refine ⟨hg.symm, hb2, ?_⟩
  rw [hBabs]
  calc sjl.natAbs * g ≤ sj.natAbs * g :=
        Nat.mul_le_mul_right _ habs
    _ = g * B1.natAbs := by rw [hsjabs, mul_comm]

theorem xgcdLoop_post (A B : Int) (hB : 0 < B) :
    ∀ fuel sj sjl tj tjl rj rjl, rj.natAbs < fuel →
      XgcdInv A B sj sjl tj tjl rj rjl →
      (xgcdLoop fuel sj sjl tj tjl rj rjl).1 = (Int.gcd A B : Int) ∧
      (xgcdLoop fuel sj sjl tj tjl rj rjl).2.1 * A +
        (xgcdLoop fuel sj sjl tj tjl rj rjl).2.2 * B =
        (xgcdLoop fuel sj sjl tj tjl rj rjl).1 ∧
      (xgcdLoop fuel sj sjl tj tjl rj rjl).2.1.natAbs * Int.gcd A B ≤ B.natAbs := by
  intro fuel
  induction fuel with
  | zero =>
    intro sj sjl tj tjl rj rjl hfuel _
    omega
  | succ m ih =>
    intro sj sjl tj tjl rj rjl hfuel hinv
    by_cases hrj : rj = 0
    · subst hrj
      obtain ⟨he1, he2, he3⟩ := xgcd_exit hB hinv
      simpa [xgcdLoop] using ⟨he1.symm ▸ rfl, by simpa [he1] using he2, he3⟩
    · obtain ⟨hb1, hb2, hnn, hlt, hsign, habs, hdet, hgcd⟩ := hinv
      have hrj0 : 0 < rj := lt_of_le_of_ne hnn (Ne.symm hrj)
      have hrl0 : 0 ≤ rjl := le_of_lt (lt_of_le_of_lt hnn hlt)
      have htm : rjl - rjl.tdiv rj * rj = rjl.tmod rj := by
        rw [Int.tmod_def]
        ring
      have hq1 : 1 ≤ rjl.tdiv rj := by
        rw [Int.tdiv_eq_ediv hrl0 (le_of_lt hrj0)]
        rw [Int.le_ediv_iff_mul_le hrj0, one_mul]
        exact le_of_lt hlt
      have hnn' : 0 ≤ rjl - rjl.tdiv rj * rj := htm ▸ Int.tmod_nonneg rj hrl0
      have hlt' : rjl - rjl.tdiv rj * rj < rj := htm ▸ Int.tmod_lt_of_pos rjl hrj0
      have hstep : xgcdLoop (m + 1) sj sjl tj tjl rj rjl =
          xgcdLoop m (sjl - rjl.tdiv rj * sj) sj (tjl - rjl.tdiv rj * tj) tj
            (rjl - rjl.tdiv rj * rj) rj := by
        simp [xgcdLoop, hrj]
      rw [hstep]
      apply ih
      · omega
      · refine ⟨by linear_combination hb2 - rjl.tdiv rj * hb1, hb1, hnn', hlt', ?_, ?_, ?_, ?_⟩
        · nlinarith [sq_nonneg sj]
        · exact natAbs_step_ge hq1 hsign
        · rcases hdet with h | h
          · right
            linear_combination -h
          · left
            linear_combination -h
        · rw [gcd_sub_mul rjl rj (rjl.tdiv rj)]
          exact hgcd

theorem xgcd_spec {A B : Int} (hA : 0 ≤ A) (hB : 0 < B) :
    (xgcd A B).1 = (Int.gcd A B : Int) ∧
    (xgcd A B).2.1 * A + (xgcd A B).2.2 * B = (xgcd A B).1 ∧
    (xgcd A B).2.1.natAbs * Int.gcd A B ≤ B.natAbs := by
  have hBne : B ≠ 0 := ne_of_gt hB
  have htm : A - A.tdiv B * B = A.tmod B := by
    rw [Int.tmod_def]
    ring
  have h1 : 0 ≤ A - A.tdiv B * B := htm ▸ Int.tmod_nonneg B hA
  have h2 : A - A.tdiv B * B < B := htm ▸ Int.tmod_lt_of_pos A hB
  have hstep : xgcd A B =
      xgcdLoop (B.natAbs + A.natAbs) (1 - A.tdiv B * 0) 0 (0 - A.tdiv B * 1) 1
        (A - A.tdiv B * B) B := by
    rw [xgcd]
    show xgcdLoop (B.natAbs + A.natAbs + 1) 0 1 1 0 B A = _
    simp [xgcdLoop, hBne]
  rw [hstep]
  apply xgcdLoop_post A B hB
  · omega
  · refine ⟨by ring_nf, by ring_nf, by simpa using h1, by simpa using h2, by simp, by simp,
      Or.inl (by ring_nf), ?_⟩
    have hgs : Int.gcd B (A - A.tdiv B * B) = Int.gcd A B := gcd_sub_mul A B (A.tdiv B)
    exact hgs

/-! ## Correctness of `mod_inv` -/

theorem mod_inv_aux {ss : SecretShare} {P : Nat} (hp : ss.p = (P : Int))
    (hP : P.Prime) {a na : Int} (hna0 : 0 ≤ na) (hdvd : ss.p ∣ na - a)
    (hnd : ¬ ss.p ∣ na) :
    (xgcd na ss.p).1 = 1 ∧ 0 ≤ ((xgcd na ss.p).2.1 + ss.p).tmod ss.p ∧
      ((xgcd na ss.p).2.1 + ss.p).tmod ss.p < ss.p ∧
      ss.p ∣ (a * (((xgcd na ss.p).2.1 + ss.p).tmod ss.p) - 1) := by
  have hppos : 0 < ss.p := by
    rw [hp]
    exact_mod_cast hP.pos
  have hg1 : Int.gcd na ss.p = 1 := by
    rw [hp, Int.gcd_def, Int.natAbs_ofNat, Nat.gcd_comm]
    apply (Nat.Prime.coprime_iff_not_dvd hP).mpr
    intro h
    apply hnd
    rw [hp]
    exact Int.natCast_dvd.mpr h
  obtain ⟨hgv, hbez, hbound⟩ := xgcd_spec hna0 hppos
  have hgv1 : (xgcd na ss.p).1 = 1 := by
    rw [hgv, hg1]
    rfl
  rw [hgv1] at hbez
  rw [hg1, mul_one] at hbound
  have hxabs : |((xgcd na ss.p).2.1 : Int)| ≤ ss.p := by
    rw [Int.abs_eq_natAbs]
    calc ((xgcd na ss.p).2.1.natAbs : Int) ≤ (ss.p.natAbs : Int) := by exact_mod_cast hbound
      _ = ss.p := Int.natAbs_of_nonneg (le_of_lt hppos)
  have hxp0 : 0 ≤ (xgcd na ss.p).2.1 + ss.p := by
    have := abs_le.mp hxabs
    linarith [this.1]
  refine ⟨hgv1, Int.tmod_nonneg ss.p hxp0, Int.tmod_lt_of_pos _ hppos, ?_⟩
  have hd1 : ss.p ∣ ((xgcd na ss.p).2.1 + ss.p) -
      ((xgcd na ss.p).2.1 + ss.p).tmod ss.p := dvd_sub_tmod _ _
  have hd2 : ss.p ∣ (xgcd na ss.p).2.1 -
      ((xgcd na ss.p).2.1 + ss.p).tmod ss.p := by
    have h := dvd_sub hd1 (dvd_refl ss.p)
    have heq : ((xgcd na ss.p).2.1 + ss.p) -
        ((xgcd na ss.p).2.1 + ss.p).tmod ss.p - ss.p =
        (xgcd na ss.p).2.1 - ((xgcd na ss.p).2.1 + ss.p).tmod ss.p := by ring
    rwa [heq] at h
  have hiden : a * (((xgcd na ss.p).2.1 + ss.p).tmod ss.p) - 1 =
      (-a) * ((xgcd na ss.p).2.1 - (((xgcd na ss.p).2.1 + ss.p).tmod ss.p)) -
      (xgcd na ss.p).2.1 * (na - a) - (xgcd na ss.p).2.2 * ss.p := by
    linear_combination hbez
  rw [hiden]
  exact dvd_sub (dvd_sub (Dvd.dvd.mul_left hd2 _) (Dvd.dvd.mul_left hdvd _))
    (Dvd.dvd.mul_left (dvd_refl ss.p) _)

theorem mod_inv_spec {ss : SecretShare} {P : Nat} (hp : ss.p = (P : Int))
    (hP : P.Prime) {a : Int} (ha : -ss.p < a) (hnd : ¬ ss.p ∣ a) :
    ∃ x, ss.mod_inv a = some x ∧ 0 ≤ x ∧ x < ss.p ∧ ss.p ∣ (a * x - 1) := by
  by_cases hlt : a < 0
  · have haux := @mod_inv_aux ss P hp hP a (a + ss.p)
      (by linarith) ⟨1, by ring⟩
      (by
        intro h
        apply hnd
        have h2 : ss.p ∣ (a + ss.p) - ss.p := dvd_sub h (dvd_refl ss.p)
        simpa using h2)
    refine ⟨((xgcd (a + ss.p) ss.p).2.1 + ss.p).tmod ss.p, ?_, haux.2.1, haux.2.2.1,
      haux.2.2.2⟩
    simp only [SecretShare.mod_inv, if_pos hlt]
    rw [if_pos haux.1]
  · have haux := @mod_inv_aux ss P hp hP a a
      (by linarith) ⟨0, by ring⟩ hnd
    refine ⟨((xgcd a ss.p).2.1 + ss.p).tmod ss.p, ?_, haux.2.1, haux.2.2.1, haux.2.2.2⟩
    simp only [SecretShare.mod_inv, if_neg hlt]
    rw [if_pos haux.1]

theorem mod_inv_zero {ss : SecretShare} {P : Nat} (hp : ss.p = (P : Int))
    (hP2 : 2 ≤ P) : ss.mod_inv 0 = none := by
  have hppos : 0 < ss.p := by
    rw [hp]
    exact_mod_cast Nat.lt_of_lt_of_le Nat.zero_lt_two hP2
  obtain ⟨hgv, _, _⟩ := xgcd_spec (le_refl (0 : Int)) hppos
  have hne : (xgcd 0 ss.p).1 ≠ 1 := by
    rw [hgv, Int.gcd_zero_left, hp, Int.natAbs_ofNat]
    intro h
    have : P = 1 := by exact_mod_cast h
    omega
  simp only [SecretShare.mod_inv, lt_irrefl, if_false]
  rw [if_neg hne]

/-! ## Casting the modular arithmetic into `ZMod P` -/

theorem cast_tmod_zmod {P : Nat} {p : Int} (hp : p = (P : Int)) (a : Int) :
    ((a.tmod p : Int) : ZMod P) = (a : ZMod P) := by
  subst hp
  rw [Int.tmod_def]
  push_cast
  rw [ZMod.natCast_self]
  ring

theorem cast_int_eq_of_dvd {P : Nat} {p : Int} (hp : p = (P : Int)) {a b : Int}
    (h : p ∣ a - b) : (a : ZMod P) = (b : ZMod P) := by
  subst hp
  obtain ⟨c, hc⟩ := h
  have ha : a = b + (P : Int) * c := by linarith
  rw [ha]
  push_cast
  rw [ZMod.natCast_self]
  ring

theorem as_i64_small {x : Nat} (hx : x < 2 ^ 63) : as_i64 x = (x : Int) := by
  unfold as_i64
  have hx' : (x : Int) < 2 ^ 63 := by exact_mod_cast hx
  have h1 : (0 : Int) ≤ (x : Int) + 2 ^ 63 := by positivity
  have h2 : (x : Int) + 2 ^ 63 < 2 ^ 64 := by
    have h3 : (2 : Int) ^ 63 + 2 ^ 63 = 2 ^ 64 := by norm_num
    linarith
  rw [Int.emod_eq_of_lt h1 h2]
  ring

/-! ## The product folds of the interpolation -/

theorem foldl_prod_bounds {ss : SecretShare} (hp0 : 0 < ss.p) (f : Nat → Int)
    (item : Nat) :
    ∀ (l : List Nat) (acc : Int), -ss.p < acc → acc < ss.p →
      -ss.p < l.foldl
          (fun product i => if i = item then product else (product * f i).tmod ss.p) acc ∧
        l.foldl
          (fun product i => if i = item then product else (product * f i).tmod ss.p) acc <
          ss.p := by
  intro l
  induction l with
  | nil =>
    intro acc h1 h2
    exact ⟨h1, h2⟩
  | cons a l ihl =>
    intro acc h1 h2
    rw [List.foldl_cons]
    by_cases ha : a = item
    · rw [if_pos ha]
      exact ihl acc h1 h2
    · rw [if_neg ha]
      exact ihl _ (tmod_lower hp0 _) (tmod_upper hp0 _)

theorem prodTerm_bounds {ss : SecretShare} (hp : 2 ≤ ss.p) (f : Nat → Int)
    (item len : Nat) :
    -ss.p < ss.prodTerm f item len ∧ ss.prodTerm f item len < ss.p := by
  have hp0 : 0 < ss.p := by linarith
  exact foldl_prod_bounds hp0 f item (List.range len) 1 (by linarith) (by linarith)

theorem prodTerm_cast {ss : SecretShare} {P : Nat} (hp : ss.p = (P : Int))
    (f : Nat → Int) (item : Nat) :
    ∀ len, ((ss.prodTerm f item len : Int) : ZMod P) =
      ∏ i ∈ (Finset.range len).erase item, ((f i : Int) : ZMod P) := by
  intro len
  induction len with
  | zero => simp [SecretShare.prodTerm]
  | succ n ihn =>
    have hsplit : ss.prodTerm f item (n + 1) =
        if n = item then ss.prodTerm f item n
        else (ss.prodTerm f item n * f n).tmod ss.p := by
      simp only [SecretShare.prodTerm, List.range_succ, List.foldl_append,
        List.foldl_cons, List.foldl_nil]
    by_cases hn : n = item
    · rw [hsplit, if_pos hn, ihn, Finset.range_succ, hn, Finset.erase_insert
        (Finset.not_mem_range_self), Finset.erase_eq_of_not_mem
        (by rw [← hn]; exact Finset.not_mem_range_self)]
    · rw [hsplit, if_neg hn, cast_tmod_zmod hp]
      push_cast
      rw [ihn, Finset.range_succ, Finset.erase_insert_of_ne hn,
        Finset.prod_insert (by simp)]
      ring

theorem foldl_prod_stays_zero {ss : SecretShare} (f : Nat → Int) (item : Nat) :
    ∀ (l : List Nat),
      l.foldl (fun product i => if i = item then product else (product * f i).tmod ss.p)
        0 = 0 := by
  intro l
  induction l with
  | nil => rfl
  | cons a l ihl =>
    rw [List.foldl_cons]
    by_cases ha : a = item
    · rw [if_pos ha]
      exact ihl
    · rw [if_neg ha, zero_mul, Int.zero_tmod]
      exact ihl

/-- If one of the factors the fold multiplies in is exactly zero, the whole
product is exactly zero. -/
theorem foldl_prod_eq_zero {ss : SecretShare} (f : Nat → Int) (item : Nat)
    {j : Nat} (hj : j ≠ item) (hfj : f j = 0) :
    ∀ (l : List Nat), j ∈ l → ∀ acc,
      l.foldl (fun product i => if i = item then product else (product * f i).tmod ss.p)
        acc = 0 := by
  intro l
  induction l with
  | nil =>
    intro h
    cases h
  | cons a l ihl =>
    intro hmem acc
    rw [List.foldl_cons]
    rcases List.mem_cons.mp hmem with h | h
    · subst h
      rw [if_neg hj, hfj, mul_zero, Int.zero_tmod]
      exact foldl_prod_stays_zero f item l
    · exact ihl h _

/-- Two shares with the same index give an exactly-zero denominator. -/
theorem denomTerm_eq_zero {ss : SecretShare} {xs : List Nat} {i j : Nat}
    (hij : j ≠ i) (hjlen : j < xs.length)
    (heq : xs.getD i 0 = xs.getD j 0) : ss.denomTerm xs i = 0 := by
  unfold SecretShare.denomTerm SecretShare.prodTerm
  apply foldl_prod_eq_zero _ i hij _ _ (List.mem_range.mpr hjlen)
  unfold SecretShare.nodeOf
  rw [heq, sub_self]

/-! ## The accumulating fold of the interpolation -/

theorem lagrange_foldl_none (ss : SecretShare) (x : Int) (xs : List Nat)
    (ys : List Int) :
    ∀ l : List Nat, l.foldl (ss.lagrangeStep x xs ys) none = none := by
  intro l
  induction l with
  | nil => rfl
  | cons a l ihl =>
    rw [List.foldl_cons]
    have hstep : ss.lagrangeStep x xs ys none a = none := rfl
    rw [hstep]
    exact ihl

theorem lagrange_foldl_isSome (ss : SecretShare) (x : Int) (xs : List Nat)
    (ys : List Int) :
    ∀ (l : List Nat) (acc : Option Int) (r : Int),
      l.foldl (ss.lagrangeStep x xs ys) acc = some r →
      ∀ item ∈ l, (ss.mod_inv (ss.denomTerm xs item)).isSome := by
  intro l
  induction l with
  | nil =>
    intro acc r _ item h
    cases h
  | cons a l ihl =>
    intro acc r hfold item hmem
    rw [List.foldl_cons] at hfold
    rcases List.mem_cons.mp hmem with h | h
    · subst h
      by_contra hnone
      rw [Option.not_isSome_iff_eq_none] at hnone
      have hstep : ss.lagrangeStep x xs ys acc item = none := by
        cases acc <;> simp [SecretShare.lagrangeStep, hnone]
      rw [hstep, lagrange_foldl_none] at hfold
      cases hfold
    · exact ihl _ r hfold item h

theorem lagrange_foldl_spec {ss : SecretShare} {P : Nat} (hp : ss.p = (P : Int))
    (hp0 : 0 < ss.p) (x : Int) (xs : List Nat) (ys : List Int) :
    ∀ (l : List Nat) (acc : Int), -ss.p < acc → acc < ss.p →
      (∀ item ∈ l, ∃ w, ss.mod_inv (ss.denomTerm xs item) = some w ∧
        ((w : Int) : ZMod P) = (((ss.denomTerm xs item : Int) : ZMod P))⁻¹) →
      ∃ r, l.foldl (ss.lagrangeStep x xs ys) (some acc) = some r ∧
        -ss.p < r ∧ r < ss.p ∧
        ((r : Int) : ZMod P) = ((acc : Int) : ZMod P) +
          (l.map fun item =>
            ((ss.numerTerm x xs item : Int) : ZMod P) *
              (((ss.denomTerm xs item : Int) : ZMod P))⁻¹ *
              ((ys.getD item 0 : Int) : ZMod P)).sum := by
  intro l
  induction l with
  | nil =>
    intro acc h1 h2 _
    exact ⟨acc, rfl, h1, h2, by simp⟩
  | cons a l ihl =>
    intro acc h1 h2 hw
    obtain ⟨w, hw1, hw2⟩ := hw a (List.mem_cons_self a l)
    rw [List.foldl_cons]
    have hstep : ss.lagrangeStep x xs ys (some acc) a =
        some ((acc + ss.numerTerm x xs a * w * ys.getD a 0).tmod ss.p) := by
      simp [SecretShare.lagrangeStep, hw1]
    rw [hstep]
    obtain ⟨r, hr1, hr2, hr3, hr4⟩ := ihl _ (tmod_lower hp0 _) (tmod_upper hp0 _)
      (fun item hitem => hw item (List.mem_cons_of_mem a hitem))
    refine ⟨r, hr1, hr2, hr3, ?_⟩
    rw [hr4, cast_tmod_zmod hp, List.map_cons, List.sum_cons]
    push_cast
    rw [hw2]
    ring

theorem list_range_map_sum {M : Type} [AddCommMonoid M] (g : Nat → M) :
    ∀ n, ((List.range n).map g).sum = ∑ i ∈ Finset.range n, g i := by
  intro n
  induction n with
  | zero => simp
  | succ n ihn =>
    rw [List.range_succ, List.map_append, List.sum_append, Finset.sum_range_succ, ihn]
    simp

/-! ## The Horner evaluation -/

theorem mod_evaluate_at_foldr (ss : SecretShare) (c : List Int) (x : Nat) :
    ss.mod_evaluate_at c x =
      c.foldr (fun item sum => ((x : Int) * sum + item).tmod ss.p) 0 := by
  unfold SecretShare.mod_evaluate_at
  rw [List.foldl_reverse]

theorem horner_foldr_range {ss : SecretShare} (hp0 : 0 < ss.p) (x : Nat) :
    ∀ c : List Int, (∀ a ∈ c, 0 ≤ a) →
      0 ≤ c.foldr (fun item sum => ((x : Int) * sum + item).tmod ss.p) 0 ∧
        c.foldr (fun item sum => ((x : Int) * sum + item).tmod ss.p) 0 < ss.p := by
  intro c
  induction c with
  | nil =>
    intro _
    exact ⟨le_refl 0, hp0⟩
  | cons a c ihc =>
    intro hc
    rw [List.foldr_cons]
    have hS := ihc fun b hb => hc b (List.mem_cons_of_mem a hb)
    have ha : 0 ≤ a := hc a (List.mem_cons_self a c)
    constructor
    · apply Int.tmod_nonneg
      have hx0 : (0 : Int) ≤ (x : Int) := Int.ofNat_nonneg x
      nlinarith [hS.1]
    · exact tmod_upper hp0 _

theorem mod_evaluate_at_range {ss : SecretShare} (hp0 : 0 < ss.p) {c : List Int}
    (hc : ∀ a ∈ c, 0 ≤ a) (x : Nat) :
    0 ≤ ss.mod_evaluate_at c x ∧ ss.mod_evaluate_at c x < ss.p := by
  rw [mod_evaluate_at_foldr]
  exact horner_foldr_range hp0 x c hc

theorem horner_foldr_cast {ss : SecretShare} {P : Nat} (hp : ss.p = (P : Int))
    (x : Nat) :
    ∀ c : List Int,
      ((c.foldr (fun item sum => ((x : Int) * sum + item).tmod ss.p) 0 : Int) : ZMod P) =
        (c.map fun a : Int => ((a : Int) : ZMod P)).foldr
          (fun a acc => (x : ZMod P) * acc + a) 0 := by
  intro c
  induction c with
  | nil => simp
  | cons a c ihc =>
    rw [List.foldr_cons, cast_tmod_zmod hp, List.map_cons, List.foldr_cons, ← ihc]
    push_cast
    ring

/-! ## The interpolation evaluates polynomials -/

/-- The central lemma: if the `ys` are (mod `p`) the values of a polynomial
`F` of degree `< len` at the (i64-cast) nodes, and the nodes are pairwise
distinct mod `p`, then `lagrange_interpolation` succeeds and returns a value
in `(-p, p)` congruent to `F` evaluated at `x`. -/
theorem lagrange_eval {ss : SecretShare} {P : Nat} (hp : ss.p = (P : Int))
    (hP : P.Prime) (x : Int) (xs : List Nat) (ys : List Int)
    (F : Polynomial (ZMod P))
    (hdeg : F.degree < (xs.length : ℕ))
    (hinj : ∀ i < xs.length, ∀ j < xs.length,
      ((SecretShare.nodeOf xs i : Int) : ZMod P) =
        ((SecretShare.nodeOf xs j : Int) : ZMod P) → i = j)
    (hy : ∀ i < xs.length,
      ((ys.getD i 0 : Int) : ZMod P) =
        F.eval ((SecretShare.nodeOf xs i : Int) : ZMod P)) :
    ∃ r, ss.lagrange_interpolation x xs ys = some r ∧ -ss.p < r ∧ r < ss.p ∧
      ((r : Int) : ZMod P) = F.eval ((x : Int) : ZMod P) := by
  haveI : Fact (Nat.Prime P) := ⟨hP⟩
  have hP2 : 2 ≤ P := hP.two_le
  have hp2 : 2 ≤ ss.p := by
    rw [hp]
    exact_mod_cast hP2
  have hp0 : 0 < ss.p := by linarith
  set v : Nat → ZMod P := fun i => ((SecretShare.nodeOf xs i : Int) : ZMod P) with hv
  have hvs : Set.InjOn v (Finset.range xs.length) := by
    intro i hi j hj hij
    simp only [Finset.coe_range, Set.mem_Iio] at hi hj
    exact hinj i hi j hj hij
  have hdcast : ∀ item, ((ss.denomTerm xs item : Int) : ZMod P) =
      ∏ i ∈ (Finset.range xs.length).erase item, (v item - v i) := by
    intro item
    unfold SecretShare.denomTerm
    rw [prodTerm_cast hp]
    apply Finset.prod_congr rfl
    intro i _
    push_cast
    rfl
  have hncast : ∀ item, ((ss.numerTerm x xs item : Int) : ZMod P) =
      ∏ i ∈ (Finset.range xs.length).erase item, (((x : Int) : ZMod P) - v i) := by
    intro item
    unfold SecretShare.numerTerm
    rw [prodTerm_cast hp]
    apply Finset.prod_congr rfl
    intro i _
    push_cast
    rfl
  have hdne : ∀ item ∈ Finset.range xs.length,
      ((ss.denomTerm xs item : Int) : ZMod P) ≠ 0 := by
    intro item hitem
    rw [hdcast]
    apply Finset.prod_ne_zero_iff.mpr
    intro i hi
    rcases Finset.mem_erase.mp hi with ⟨hne, hirange⟩
    intro hzero
    apply hne
    have heqv : v item = v i := by
      have := sub_eq_zero.mp hzero
      exact this
    exact hvs (Finset.mem_coe.mpr hirange) (Finset.mem_coe.mpr hitem) heqv.symm
  have hw : ∀ item ∈ List.range xs.length,
      ∃ w, ss.mod_inv (ss.denomTerm xs item) = some w ∧
        ((w : Int) : ZMod P) = (((ss.denomTerm xs item : Int) : ZMod P))⁻¹ := by
    intro item hitem
    have hitem' : item ∈ Finset.range xs.length :=
      Finset.mem_range.mpr (List.mem_range.mp hitem)
    have hb := prodTerm_bounds hp2
      (fun i => SecretShare.nodeOf xs item - SecretShare.nodeOf xs i) item xs.length
    have hnd : ¬ ss.p ∣ ss.denomTerm xs item := by
      intro hdvd
      apply hdne item hitem'
      rw [hp] at hdvd
      exact (ZMod.intCast_zmod_eq_zero_iff_dvd _ _).mpr hdvd
    obtain ⟨w, hw1, _, _, hw4⟩ := mod_inv_spec hp hP
      (show -ss.p < ss.denomTerm xs item from hb.1) hnd
    refine ⟨w, hw1, ?_⟩
    have hcast1 : ((ss.denomTerm xs item * w - 1 : Int) : ZMod P) = 0 := by
      rw [hp] at hw4
      exact (ZMod.intCast_zmod_eq_zero_iff_dvd _ _).mpr hw4
    push_cast at hcast1
    have hmul : ((ss.denomTerm xs item : Int) : ZMod P) * ((w : Int) : ZMod P) = 1 := by
      linear_combination hcast1
    exact (inv_eq_of_mul_eq_one_right hmul).symm
  obtain ⟨r, hr1, hr2, hr3, hr4⟩ := lagrange_foldl_spec hp hp0 x xs ys
    (List.range xs.length) 0 (by linarith) (by linarith) hw
  refine ⟨r, hr1, hr2, hr3, ?_⟩
  rw [hr4, list_range_map_sum, Int.cast_zero, zero_add]
  have hFi : F = Lagrange.interpolate (Finset.range xs.length) v
      fun i => F.eval (v i) :=
    Lagrange.eq_interpolate hvs (by rwa [Finset.card_range])
  conv_rhs => rw [hFi]
  rw [Lagrange.interpolate_apply, Polynomial.eval_finset_sum]
  apply Finset.sum_congr rfl
  intro i hi
  rw [Polynomial.eval_mul, Polynomial.eval_C]
  have hbasis : (Lagrange.basis (Finset.range xs.length) v i).eval ((x : Int) : ZMod P) =
      (∏ j ∈ (Finset.range xs.length).erase i, (v i - v j))⁻¹ *
        ∏ j ∈ (Finset.range xs.length).erase i, (((x : Int) : ZMod P) - v j) := by
    unfold Lagrange.basis
    rw [Polynomial.eval_prod, ← Finset.prod_inv_distrib, ← Finset.prod_mul_distrib]
    apply Finset.prod_congr rfl
    intro j _
    simp [Lagrange.basisDivisor]
  rw [hbasis, hncast, hdcast, ← hy i (Finset.mem_range.mp hi)]
  ring

/-! ## The sampled coefficient list as a `ZMod P` polynomial -/

/-- The polynomial with the given (low-to-high) coefficient list. -/
noncomputable def polyOfCoeffs {P : Nat} (c : List (ZMod P)) : Polynomial (ZMod P) :=
  c.foldr (fun a q => Polynomial.C a + Polynomial.X * q) 0

theorem polyOfCoeffs_eval {P : Nat} (c : List (ZMod P)) (z : ZMod P) :
    (polyOfCoeffs c).eval z = c.foldr (fun a acc => z * acc + a) 0 := by
  induction c with
  | nil => simp [polyOfCoeffs]
  | cons a c ihc =>
    show (Polynomial.C a + Polynomial.X * polyOfCoeffs c).eval z = _
    rw [Polynomial.eval_add, Polynomial.eval_C, Polynomial.eval_mul, Polynomial.eval_X,
      ihc, List.foldr_cons]
    ring

theorem polyOfCoeffs_eval_zero {P : Nat} (a : ZMod P) (c : List (ZMod P)) :
    (polyOfCoeffs (a :: c)).eval 0 = a := by
  rw [polyOfCoeffs_eval, List.foldr_cons]
  simp

theorem polyOfCoeffs_degree_lt {P : Nat} :
    ∀ c : List (ZMod P), (polyOfCoeffs c).degree < (c.length : ℕ) := by
  intro c
  induction c with
  | nil =>
    show (0 : Polynomial (ZMod P)).degree < _
    rw [Polynomial.degree_zero]
    exact WithBot.bot_lt_coe _
  | cons a c ihc =>
    show (Polynomial.C a + Polynomial.X * polyOfCoeffs c).degree < _
    apply lt_of_le_of_lt (Polynomial.degree_add_le _ _)
    rw [max_lt_iff]
    constructor
    · apply lt_of_le_of_lt Polynomial.degree_C_le
      rw [List.length_cons]
      exact_mod_cast WithBot.coe_lt_coe.mpr (Nat.succ_pos c.length)
    · apply lt_of_le_of_lt (Polynomial.degree_mul_le _ _)
      apply lt_of_le_of_lt (add_le_add_right Polynomial.degree_X_le _)
      have h1 : (1 : WithBot ℕ) + (polyOfCoeffs c).degree <
          1 + ((c.length : ℕ) : WithBot ℕ) :=
        WithBot.add_lt_add_left (by simp) ihc
      apply lt_of_lt_of_le h1
      rw [List.length_cons]
      push_cast
      rw [add_comm]

theorem mod_evaluate_at_zmod {ss : SecretShare} {P : Nat} (hp : ss.p = (P : Int))
    (c : List Int) (x : Nat) :
    ((ss.mod_evaluate_at c x : Int) : ZMod P) =
      (polyOfCoeffs (c.map fun a : Int => ((a : Int) : ZMod P))).eval (x : ZMod P) := by
  rw [mod_evaluate_at_foldr, horner_foldr_cast hp, polyOfCoeffs_eval]

/-! ## Representatives in `[0, p)` are determined by their residue -/

theorem int_eq_of_cast_eq {P : Nat} {p : Int} (hp : p = (P : Int)) {a b : Int}
    (ha : 0 ≤ a) (ha2 : a < p) (hb : 0 ≤ b) (hb2 : b < p)
    (h : (a : ZMod P) = (b : ZMod P)) : a = b := by
  have hp0 : 0 < p := lt_of_le_of_lt ha ha2
  have hd : p ∣ a - b := by
    rw [hp]
    apply (ZMod.intCast_zmod_eq_zero_iff_dvd _ _).mp
    push_cast
    rw [h]
    ring
  obtain ⟨k, hk⟩ := hd
  rcases lt_trichotomy k 0 with hc | hc | hc
  · nlinarith
  · subst hc
    linarith [hk]
  · nlinarith

/-! ## The sampled coefficients -/

theorem gen_range_bounds {p : Int} (hp : 2 ≤ p) (d : Nat) :
    0 ≤ gen_bigint_range 0 (p - 1) d ∧ gen_bigint_range 0 (p - 1) d ≤ p - 2 := by
  unfold gen_bigint_range
  rw [sub_zero, zero_add]
  have h1 : (0 : Int) < p - 1 := by linarith
  constructor
  · exact Int.emod_nonneg (d : Int) (ne_of_gt h1)
  · have h2 := Int.emod_lt_of_pos (d : Int) h1
    linarith

theorem gen_range_surjective {p : Int} (hp : 2 ≤ p) {v : Int} (hv0 : 0 ≤ v)
    (hv1 : v ≤ p - 2) : ∃ d : Nat, gen_bigint_range 0 (p - 1) d = v := by
  refine ⟨v.toNat, ?_⟩
  unfold gen_bigint_range
  rw [sub_zero, zero_add, Int.toNat_of_nonneg hv0,
    Int.emod_eq_of_lt hv0 (by linarith)]

theorem usize_sub_one {t : Nat} (ht : 1 ≤ t) : usize_sub t 1 = some (t - 1) := by
  unfold usize_sub
  rw [if_pos ht]

theorem sample_polynomial_spec {ss : SecretShare} {secret : Int}
    {draws : Nat → Nat} {c : List Int}
    (h : ss.sample_polynomial secret draws = some c) :
    1 ≤ ss.t ∧ c.length = ss.t ∧
      c = secret :: (List.range (ss.t - 1)).map
        (fun i => gen_bigint_range 0 (ss.p - 1) (draws i)) := by
  unfold SecretShare.sample_polynomial at h
  rcases Option.map_eq_some'.mp h with ⟨k, hk1, hk2⟩
  unfold usize_sub at hk1
  by_cases ht : 1 ≤ ss.t
  · rw [if_pos ht] at hk1
    have hkeq : k = ss.t - 1 := by
      injection hk1 with h1
      omega
    subst hkeq
    refine ⟨ht, ?_, hk2.symm⟩
    rw [← hk2]
    simp only [List.length_cons, List.length_map, List.length_range]
    omega
  · rw [if_neg ht] at hk1
    cases hk1

theorem split_spec {ss : SecretShare} {secret : Int} {draws : Nat → Nat}
    {shares : List (Nat × Int)}
    (h : ss.split secret draws = some shares) :
    ss.t < ss.n ∧ ∃ c, ss.sample_polynomial secret draws = some c ∧
      shares = ss.evaluate_polynomial c := by
  unfold SecretShare.split at h
  by_cases htn : ss.t < ss.n
  · rw [if_pos htn] at h
    rcases Option.map_eq_some'.mp h with ⟨c, hc1, hc2⟩
    exact ⟨htn, c, hc1, hc2.symm⟩
  · rw [if_neg htn] at h
    cases h

theorem evaluate_polynomial_mem {ss : SecretShare} {c : List Int}
    {q : Nat × Int} (h : q ∈ ss.evaluate_polynomial c) :
    q.2 = ss.mod_evaluate_at c q.1 ∧ 1 ≤ q.1 ∧ q.1 ≤ ss.n := by
  unfold SecretShare.evaluate_polynomial at h
  rcases List.mem_map.mp h with ⟨x, hx1, hx2⟩
  rcases List.mem_range'_1.mp hx1 with ⟨hx3, hx4⟩
  subst hx2
  exact ⟨rfl, hx3, by omega⟩

/-! ## Evaluating `recover` -/

theorem recover_eval {ss : SecretShare} {P : Nat} (hp : ss.p = (P : Int))
    (hP : P.Prime) {shares : List (Nat × Int)} (hlen : shares.length = ss.t)
    {c : List Int} (hclen : c.length ≤ shares.length)
    (h63 : ∀ q ∈ shares, q.1 < 2 ^ 63)
    (hnodup : (shares.map fun q => ((q.1 : Nat) : ZMod P)).Nodup)
    (hvals : ∀ q ∈ shares, q.2 = ss.mod_evaluate_at c q.1)
    {v : Int} (hv0 : 0 ≤ v) (hvp : v < ss.p)
    (hvc : ((v : Int) : ZMod P) =
      (polyOfCoeffs (c.map fun a : Int => ((a : Int) : ZMod P))).eval 0) :
    ss.recover shares = .ok v := by
  have hxlen : (shares.map Prod.fst).length = shares.length := List.length_map _ _
  have hnode : ∀ i (hi : i < shares.length),
      SecretShare.nodeOf (shares.map Prod.fst) i = ((shares[i]).1 : Int) := by
    intro i hi
    unfold SecretShare.nodeOf
    have hi' : i < (shares.map Prod.fst).length := by
      rw [hxlen]
      exact hi
    rw [List.getD_eq_getElem _ _ hi', List.getElem_map]
    exact as_i64_small (h63 _ (List.getElem_mem hi))
  have hdegF : (polyOfCoeffs (c.map fun a : Int => ((a : Int) : ZMod P))).degree <
      ((shares.map Prod.fst).length : ℕ) := by
    apply lt_of_lt_of_le (polyOfCoeffs_degree_lt _)
    rw [List.length_map, List.length_map]
    exact_mod_cast hclen
  have hinj : ∀ i < (shares.map Prod.fst).length, ∀ j < (shares.map Prod.fst).length,
      ((SecretShare.nodeOf (shares.map Prod.fst) i : Int) : ZMod P) =
        ((SecretShare.nodeOf (shares.map Prod.fst) j : Int) : ZMod P) → i = j := by
    intro i hi j hj heq
    rw [hxlen] at hi hj
    rw [hnode i hi, hnode j hj] at heq
    have hinj' := List.nodup_iff_injective_getElem.mp hnodup
    have hmlen : (shares.map fun q => ((q.1 : Nat) : ZMod P)).length = shares.length :=
      List.length_map _ _
    have hib : i < (shares.map fun q => ((q.1 : Nat) : ZMod P)).length := by
      rwa [hmlen]
    have hjb : j < (shares.map fun q => ((q.1 : Nat) : ZMod P)).length := by
      rwa [hmlen]
    have h1 : (shares.map fun q => ((q.1 : Nat) : ZMod P))[i] =
        (shares.map fun q => ((q.1 : Nat) : ZMod P))[j] := by
      rw [List.getElem_map, List.getElem_map]
      exact_mod_cast heq
    have h2 : (⟨i, hib⟩ : Fin (shares.map fun q => ((q.1 : Nat) : ZMod P)).length) =
        ⟨j, hjb⟩ := hinj' h1
    have h3 := congrArg Fin.val h2
    simpa using h3
  have hy : ∀ i < (shares.map Prod.fst).length,
      (((shares.map Prod.snd).getD i 0 : Int) : ZMod P) =
        (polyOfCoeffs (c.map fun a : Int => ((a : Int) : ZMod P))).eval
          ((SecretShare.nodeOf (shares.map Prod.fst) i : Int) : ZMod P) := by
    intro i hi
    rw [hxlen] at hi
    have hylen : i < (shares.map Prod.snd).length := by
      rw [List.length_map]
      exact hi
    rw [List.getD_eq_getElem _ _ hylen, List.getElem_map, hnode i hi,
      hvals _ (List.getElem_mem hi), mod_evaluate_at_zmod hp]
    push_cast
    rfl
  obtain ⟨r, hr1, hr2, hr3, hr4⟩ := lagrange_eval hp hP 0 (shares.map Prod.fst)
    (shares.map Prod.snd) _ hdegF hinj hy
  unfold SecretShare.recover
  rw [if_pos hlen, hr1]
  show Except.ok (if r < 0 then r + ss.p else r) = Except.ok v
  congr 1
  have hnorm_cast : ((if r < 0 then r + ss.p else r : Int) : ZMod P) =
      ((r : Int) : ZMod P) := by
    by_cases hr : r < 0
    · rw [if_pos hr, hp]
      push_cast
      rw [ZMod.natCast_self]
      ring
    · rw [if_neg hr]
  refine int_eq_of_cast_eq hp ?_ ?_ hv0 hvp ?_
  · by_cases hr : r < 0
    · rw [if_pos hr]
      linarith
    · rw [if_neg hr]
      linarith
  · by_cases hr : r < 0
    · rw [if_pos hr]
      linarith
    · rw [if_neg hr]
      exact hr3
  · rw [hnorm_cast, hr4, hvc, Int.cast_zero]

/-! ## Horner evaluation against the reference sum -/

theorem polyRefSum_cons (a : Int) (c : List Int) (x : Int) :
    polyRefSum (a :: c) x = a + x * polyRefSum c x := by
  unfold polyRefSum
  rw [List.length_cons, List.range_succ_eq_map, List.map_cons, List.sum_cons, List.map_map]
  have hfun : ((fun i => (a :: c).getD i 0 * x ^ i) ∘ Nat.succ) =
      fun i => x * (c.getD i 0 * x ^ i) := by
    funext i
    simp only [Function.comp_apply, List.getD_cons_succ, pow_succ]
    ring
  rw [hfun, List.sum_map_mul_left]
  simp only [List.getD_cons_zero, pow_zero, mul_one]

theorem polyRefSum_nonneg {c : List Int} (hc : ∀ a ∈ c, 0 ≤ a) {x : Int}
    (hx : 0 ≤ x) : 0 ≤ polyRefSum c x := by
  apply List.sum_nonneg
  intro b hb
  rcases List.mem_map.mp hb with ⟨i, _, hi⟩
  subst hi
  apply mul_nonneg _ (pow_nonneg hx i)
  by_cases hil : i < c.length
  · rw [List.getD_eq_getElem _ _ hil]
    exact hc _ (List.getElem_mem hil)
  · rw [List.getD_eq_default _ _ (by omega)]

theorem horner_eq_ref {ss : SecretShare} (hp0 : 0 < ss.p) (x : Nat) :
    ∀ c : List Int, (∀ a ∈ c, 0 ≤ a) →
      c.foldr (fun item sum => ((x : Int) * sum + item).tmod ss.p) 0 =
        polyRefSum c (x : Int) % ss.p := by
  intro c
  induction c with
  | nil =>
    intro _
    unfold polyRefSum
    simp
  | cons a c ihc =>
    intro hc
    have hc' : ∀ b ∈ c, 0 ≤ b := fun b hb => hc b (List.mem_cons_of_mem a hb)
    have ha : 0 ≤ a := hc a (List.mem_cons_self a c)
    have hx0 : (0 : Int) ≤ (x : Int) := Int.ofNat_nonneg x
    have hS : 0 ≤ polyRefSum c (x : Int) := polyRefSum_nonneg hc' hx0
    have hE : 0 ≤ polyRefSum c (x : Int) % ss.p :=
      Int.emod_nonneg _ (ne_of_gt hp0)
    rw [List.foldr_cons, ihc hc']
    have hnn : 0 ≤ (x : Int) * (polyRefSum c (x : Int) % ss.p) + a := by
      have := mul_nonneg hx0 hE
      linarith
    rw [Int.tmod_eq_emod hnn (le_of_lt hp0), polyRefSum_cons]
    conv_rhs => rw [Int.add_emod, Int.mul_emod]
    conv_lhs => rw [Int.add_emod, Int.mul_emod, Int.emod_emod_of_dvd _ (dvd_refl ss.p)]
    rw [add_comm]

/-! ## The sampled coefficients are non-negative -/

theorem gen_range_nonneg (p : Int) (d : Nat) :
    0 ≤ gen_bigint_range 0 (p - 1) d := by
  unfold gen_bigint_range
  rw [sub_zero, zero_add]
  by_cases h : p - 1 = 0
  · rw [h, Int.emod_zero]
    exact Int.ofNat_nonneg d
  · exact Int.emod_nonneg _ h

theorem sample_coeffs_nonneg {ss : SecretShare} {secret : Int}
    {draws : Nat → Nat} {c : List Int} (hs : 0 ≤ secret)
    (h : ss.sample_polynomial secret draws = some c) : ∀ a ∈ c, 0 ≤ a := by
  obtain ⟨_, _, hc⟩ := sample_polynomial_spec h
  subst hc
  intro a ha
  rcases List.mem_cons.mp ha with h1 | h1
  · subst h1
    exact hs
  · rcases List.mem_map.mp h1 with ⟨i, _, h2⟩
    subst h2
    exact gen_range_nonneg ss.p _

/-! ## Duplicate share indices make `recover` fail -/

theorem recover_duplicate {ss : SecretShare} {P : Nat} (hp : ss.p = (P : Int))
    (hP2 : 2 ≤ P) {shares : List (Nat × Int)} (hlen : shares.length = ss.t)
    {i j : Nat} (hi : i < shares.length) (hj : j < shares.length) (hij : i ≠ j)
    (hdup : (shares[i]).1 = (shares[j]).1) :
    ss.recover shares = .error .gcdNotOne := by
  have hxlen : (shares.map Prod.fst).length = shares.length := List.length_map _ _
  have hgetD : ∀ k (hk : k < shares.length),
      (shares.map Prod.fst).getD k 0 = (shares[k]).1 := by
    intro k hk
    rw [List.getD_eq_getElem _ _ (by rwa [hxlen]), List.getElem_map]
  have hden : ss.denomTerm (shares.map Prod.fst) i = 0 := by
    apply denomTerm_eq_zero (Ne.symm hij) (by rwa [hxlen])
    rw [hgetD i hi, hgetD j hj]
    exact hdup
  have hnone : ss.lagrange_interpolation 0 (shares.map Prod.fst)
      (shares.map Prod.snd) = none := by
    rcases hcase : ss.lagrange_interpolation 0 (shares.map Prod.fst)
      (shares.map Prod.snd) with _ | r
    · rfl
    · exfalso
      unfold SecretShare.lagrange_interpolation at hcase
      have hsome := lagrange_foldl_isSome ss 0 (shares.map Prod.fst)
        (shares.map Prod.snd) (List.range (shares.map Prod.fst).length) (some 0) r
        hcase i (List.mem_range.mpr (by rwa [hxlen]))
      rw [hden, mod_inv_zero hp hP2] at hsome
      simp at hsome
  unfold SecretShare.recover
  rw [if_pos hlen, hnone]

/-! ## Bounds on a successful recovery -/

theorem lagrange_foldl_bounds {ss : SecretShare} (hp0 : 0 < ss.p) (x : Int)
    (xs : List Nat) (ys : List Int) :
    ∀ (l : List Nat) (acc : Int), -ss.p < acc → acc < ss.p →
      ∀ r, l.foldl (ss.lagrangeStep x xs ys) (some acc) = some r →
        -ss.p < r ∧ r < ss.p := by
  intro l
  induction l with
  | nil =>
    intro acc h1 h2 r hr
    rw [List.foldl_nil] at hr
    injection hr with hr
    subst hr
    exact ⟨h1, h2⟩
  | cons a l ihl =>
    intro acc h1 h2 r hr
    rw [List.foldl_cons] at hr
    rcases hmi : ss.mod_inv (ss.denomTerm xs a) with _ | w
    · have hstep : ss.lagrangeStep x xs ys (some acc) a = none := by
        simp [SecretShare.lagrangeStep, hmi]
      rw [hstep, lagrange_foldl_none] at hr
      cases hr
    · have hstep : ss.lagrangeStep x xs ys (some acc) a =
          some ((acc + ss.numerTerm x xs a * w * ys.getD a 0).tmod ss.p) := by
        simp [SecretShare.lagrangeStep, hmi]
      rw [hstep] at hr
      exact ihl _ (tmod_lower hp0 _) (tmod_upper hp0 _) r hr

theorem recover_ok_range {ss : SecretShare} (hp0 : 0 < ss.p)
    {shares : List (Nat × Int)} {r : Int} (h : ss.recover shares = .ok r) :
    0 ≤ r ∧ r < ss.p := by
  unfold SecretShare.recover at h
  by_cases hlen : shares.length = ss.t
  · rw [if_pos hlen] at h
    rcases hcase : ss.lagrange_interpolation 0 (shares.map Prod.fst)
      (shares.map Prod.snd) with _ | v
    · rw [hcase] at h
      cases h
    · rw [hcase] at h
      have hb : -ss.p < v ∧ v < ss.p := by
        unfold SecretShare.lagrange_interpolation at hcase
        exact lagrange_foldl_bounds hp0 0 _ _ _ 0 (by linarith) (by linarith) v hcase
      have hr : (if v < 0 then v + ss.p else v) = r := by
        injection h
      rw [← hr]
      by_cases hv : v < 0
      · rw [if_pos hv]
        constructor <;> linarith [hb.1, hb.2]
      · rw [if_neg hv]
        constructor <;> linarith [hb.2]
  · rw [if_neg hlen] at h
    cases h

theorem normalize_cast {ss : SecretShare} {P : Nat} (hp : ss.p = (P : Int))
    (r : Int) :
    (((if r < 0 then r + ss.p else r) : Int) : ZMod P) = ((r : Int) : ZMod P) := by
  by_cases hr : r < 0
  · rw [if_pos hr, hp]
    push_cast
    rw [ZMod.natCast_self]
    ring
  · rw [if_neg hr]

theorem normalize_range {ss : SecretShare} {r : Int} (hr2 : -ss.p < r)
    (hr3 : r < ss.p) :
    0 ≤ (if r < 0 then r + ss.p else r) ∧ (if r < 0 then r + ss.p else r) < ss.p := by
  by_cases hr : r < 0
  · rw [if_pos hr]
    constructor <;> linarith
  · rw [if_neg hr]
    constructor <;> linarith

/-! ## The claims -/

/-- C1 (amended): for `t < n`, `p` prime, a secret in `[0, p-1]` and any
size-`t` selection of the shares returned by `split` whose indices are
below `2^63` and pairwise distinct modulo `p`, `recover` returns the
secret.  (The original claim, quantified over all configurations and all
distinct-index subsets, fails when two selected indices coincide modulo
`p` — see the counterexample.) -/
theorem C1_roundtrip_any_subset {ss : SecretShare} {P : Nat}
    (hp : ss.p = (P : Int)) (hP : P.Prime) {s : Int} (hs0 : 0 ≤ s)
    (hsp : s < ss.p) {draws : Nat → Nat} {shares : List (Nat × Int)}
    (hsplit : ss.split s draws = some shares) {sub : List (Nat × Int)}
    (hsub : ∀ q ∈ sub, q ∈ shares) (hlen : sub.length = ss.t)
    (h63 : ∀ q ∈ sub, q.1 < 2 ^ 63)
    (hnodup : (sub.map fun q => ((q.1 : Nat) : ZMod P)).Nodup) :
    ss.recover sub = .ok s := by
  obtain ⟨htn, c, hsamp, hsh⟩ := split_spec hsplit
  obtain ⟨ht1, hclen, hcform⟩ := sample_polynomial_spec hsamp
  have h1 : c.length ≤ sub.length := by omega
  have h2 : ∀ q ∈ sub, q.2 = ss.mod_evaluate_at c q.1 := by
    intro q hq
    have hq' := hsub q hq
    rw [hsh] at hq'
    exact (evaluate_polynomial_mem hq').1
  have h3 : ((s : Int) : ZMod P) =
      (polyOfCoeffs (c.map fun a : Int => ((a : Int) : ZMod P))).eval 0 := by
    rw [hcform, List.map_cons, polyOfCoeffs_eval_zero]
  exact recover_eval hp hP hlen h1 h63 hnodup h2 hs0 hsp h3

/-- C1 counterexample: with `t = 2 < n = 8` and prime `p = 7`, `split`
succeeds on the secret `0`, the selection `{share 1, share 8}` has
distinct indices, yet `recover` hits the fatal gcd assertion (indices `1`
and `8` coincide mod `7`) instead of returning `0`. -/
theorem C1_counterexample :
    (⟨2, 8, 7⟩ : SecretShare).split 0 (fun _ => 0) =
        some [(1, 0), (2, 0), (3, 0), (4, 0), (5, 0), (6, 0), (7, 0), (8, 0)] ∧
      Nat.Prime 7 ∧ (1 : Nat) ≠ 8 ∧
      (⟨2, 8, 7⟩ : SecretShare).recover [(1, 0), (8, 0)] = .error .gcdNotOne :=
  ⟨rfl, by norm_num, by decide, rfl⟩

theorem C1_roundtrip_any_subset_witness :
    (⟨2, 3, 5⟩ : SecretShare).split 2 (fun _ => 0) =
        some [(1, 2), (2, 2), (3, 2)] ∧
      (⟨2, 3, 5⟩ : SecretShare).recover [(1, 2), (3, 2)] = .ok 2 :=
  ⟨rfl, C1_roundtrip_any_subset
    (show (⟨2, 3, 5⟩ : SecretShare).p = ((5 : Nat) : Int) from rfl) (by norm_num)
    (by decide) (by decide)
    (show (⟨2, 3, 5⟩ : SecretShare).split 2 (fun _ => 0) =
      some [(1, 2), (2, 2), (3, 2)] from rfl)
    (by decide) rfl (by decide) (by decide)⟩

/-- C2 (amended): each random coefficient produced by the sampler lies in
`[0, p-2]` (the half-open range `[0, p-1)` of `gen_bigint_range(0, p-1)`),
every value of `[0, p-2]` is attainable by some draw, and the sampled list
is the secret followed by `t-1` such values — the value `p-1` is never
drawn.  (The original claim said the inclusive range `[0, p-1]`.) -/
theorem C2_coefficient_range {ss : SecretShare} (hp2 : 2 ≤ ss.p) :
    (∀ d : Nat, 0 ≤ gen_bigint_range 0 (ss.p - 1) d ∧
        gen_bigint_range 0 (ss.p - 1) d ≤ ss.p - 2) ∧
      (∀ v : Int, 0 ≤ v → v ≤ ss.p - 2 →
        ∃ d : Nat, gen_bigint_range 0 (ss.p - 1) d = v) ∧
      ∀ secret draws c, ss.sample_polynomial secret draws = some c →
        c.getD 0 0 = secret ∧ ∀ a ∈ c.tail, 0 ≤ a ∧ a ≤ ss.p - 2 := by
  refine ⟨fun d => gen_range_bounds hp2 d, fun v hv0 hv1 =>
    gen_range_surjective hp2 hv0 hv1, ?_⟩
  intro secret draws c h
  obtain ⟨_, _, hform⟩ := sample_polynomial_spec h
  subst hform
  refine ⟨rfl, ?_⟩
  intro a ha
  rcases List.mem_map.mp ha with ⟨i, _, h2⟩
  subst h2
  exact gen_range_bounds hp2 _

/-- C2 counterexample: with `p = 5` and `t = 2` the coefficient `p - 1 = 4`
is impossible: no draw stream makes `sample_polynomial` return `[0, 4]`. -/
theorem C2_counterexample :
    ¬ ∃ draws : Nat → Nat,
      (⟨2, 3, 5⟩ : SecretShare).sample_polynomial 0 draws = some [0, 4] := by
  rintro ⟨draws, h⟩
  obtain ⟨-, -, hform⟩ := sample_polynomial_spec h
  simp only [show (⟨2, 3, 5⟩ : SecretShare).t - 1 = 1 from rfl,
    show List.range 1 = [0] from rfl, List.map_cons, List.map_nil] at hform
  have h4 : gen_bigint_range 0 ((⟨2, 3, 5⟩ : SecretShare).p - 1) (draws 0) = 4 := by
    injection hform with h1 h2
    injection h2 with h3 _
    exact h3.symm
  have hb := (gen_range_bounds
    (show (2 : Int) ≤ (⟨2, 3, 5⟩ : SecretShare).p by decide) (draws 0)).2
  rw [h4] at hb
  exact absurd hb (by decide)

theorem C2_coefficient_range_witness :
    (2 : Int) ≤ (⟨2, 3, 5⟩ : SecretShare).p ∧
      ((∀ d : Nat, 0 ≤ gen_bigint_range 0 ((⟨2, 3, 5⟩ : SecretShare).p - 1) d ∧
          gen_bigint_range 0 ((⟨2, 3, 5⟩ : SecretShare).p - 1) d ≤
            (⟨2, 3, 5⟩ : SecretShare).p - 2) ∧
        (∀ v : Int, 0 ≤ v → v ≤ (⟨2, 3, 5⟩ : SecretShare).p - 2 →
          ∃ d : Nat, gen_bigint_range 0 ((⟨2, 3, 5⟩ : SecretShare).p - 1) d = v) ∧
        ∀ secret draws c,
          (⟨2, 3, 5⟩ : SecretShare).sample_polynomial secret draws = some c →
            c.getD 0 0 = secret ∧
              ∀ a ∈ c.tail, 0 ≤ a ∧ a ≤ (⟨2, 3, 5⟩ : SecretShare).p - 2) :=
  ⟨by decide, C2_coefficient_range (by decide)⟩

/-- C3: for a non-negative secret, every share value produced by `split`
lies in `[0, p-1]`, and every value `recover` returns lies in `[0, p-1]`
(the raw interpolation result is in `(-p, p)` and `p` is added exactly
once when it is negative). -/
theorem C3_canonical_range {ss : SecretShare} (hp0 : 0 < ss.p) :
    (∀ secret draws shares, 0 ≤ secret → ss.split secret draws = some shares →
      ∀ q ∈ shares, 0 ≤ q.2 ∧ q.2 < ss.p) ∧
      ∀ shares r, ss.recover shares = .ok r → 0 ≤ r ∧ r < ss.p := by
  constructor
  · intro secret draws shares hs hsplit q hq
    obtain ⟨htn, c, hsamp, hsh⟩ := split_spec hsplit
    subst hsh
    obtain ⟨hval, _, _⟩ := evaluate_polynomial_mem hq
    rw [hval]
    exact mod_evaluate_at_range hp0 (sample_coeffs_nonneg hs hsamp) q.1
  · intro shares r h
    exact recover_ok_range hp0 h

theorem C3_canonical_range_witness :
    (0 : Int) < (⟨2, 3, 5⟩ : SecretShare).p ∧
      ((∀ secret draws shares, 0 ≤ secret →
          (⟨2, 3, 5⟩ : SecretShare).split secret draws = some shares →
          ∀ q ∈ shares, 0 ≤ q.2 ∧ q.2 < (⟨2, 3, 5⟩ : SecretShare).p) ∧
        ∀ shares r, (⟨2, 3, 5⟩ : SecretShare).recover shares = .ok r →
          0 ≤ r ∧ r < (⟨2, 3, 5⟩ : SecretShare).p) :=
  ⟨by decide, C3_canonical_range (by decide)⟩

/-- C4 (amended): for `p` prime and any integer `a > -p` with `a` not
congruent to `0` mod `p`, `mod_inv` returns some `x` in `[0, p-1]` with
`a * x ≡ 1 (mod p)`.  (The original claim allowed every negative `a`, but
the single `+ p` normalization is insufficient for `a ≤ -p` and the gcd
assertion can then fail — see the counterexample.) -/
theorem C4_mod_inv_inverse {ss : SecretShare} {P : Nat} (hp : ss.p = (P : Int))
    (hP : P.Prime) {a : Int} (ha : -ss.p < a) (hnd : ¬ ss.p ∣ a) :
    ∃ x, ss.mod_inv a = some x ∧ 0 ≤ x ∧ x ≤ ss.p - 1 ∧ ss.p ∣ (a * x - 1) := by
  obtain ⟨x, h1, h2, h3, h4⟩ := mod_inv_spec hp hP ha hnd
  exact ⟨x, h1, h2, by linarith, h4⟩

/-- C4 counterexample: `p = 3` is prime and `a = -4 ≡ 2 (mod 3)` is not
congruent to `0`, yet `mod_inv (-4)` hits the gcd assertion (the single
`+ p` normalization leaves `-1`, and `xgcd(-1, 3)` returns gcd `-1 ≠ 1`). -/
theorem C4_counterexample :
    Nat.Prime 3 ∧ ¬ ((⟨2, 3, 3⟩ : SecretShare).p ∣ (-4 : Int)) ∧
      (⟨2, 3, 3⟩ : SecretShare).mod_inv (-4) = none :=
  ⟨by norm_num, by decide, rfl⟩

theorem C4_mod_inv_inverse_witness :
    ∃ x, (⟨2, 3, 5⟩ : SecretShare).mod_inv 3 = some x ∧ 0 ≤ x ∧
      x ≤ (⟨2, 3, 5⟩ : SecretShare).p - 1 ∧
      (⟨2, 3, 5⟩ : SecretShare).p ∣ (3 * x - 1) :=
  C4_mod_inv_inverse (show (⟨2, 3, 5⟩ : SecretShare).p = ((5 : Nat) : Int) from rfl)
    (by norm_num) (by decide) (by decide)

/-- C5: for non-negative coefficients and a non-negative evaluation point,
the Horner fold of `mod_evaluate_at` returns exactly the reference value
`(a0 + a1*x + ... + a(t-1)*x^(t-1)) mod p`. -/
theorem C5_horner_matches_reference {ss : SecretShare} (hp0 : 0 < ss.p)
    {c : List Int} (hc : ∀ a ∈ c, 0 ≤ a) (x : Nat) :
    ss.mod_evaluate_at c x = polyRefSum c (x : Int) % ss.p := by
  rw [mod_evaluate_at_foldr]
  exact horner_eq_ref hp0 x c hc

theorem C5_horner_matches_reference_witness :
    (0 : Int) < (⟨3, 6, 1613⟩ : SecretShare).p ∧
      (⟨3, 6, 1613⟩ : SecretShare).mod_evaluate_at [1234, 166, 94] 2 =
        polyRefSum [1234, 166, 94] ((2 : Nat) : Int) % (⟨3, 6, 1613⟩ : SecretShare).p :=
  ⟨by decide, C5_horner_matches_reference (by decide) (by decide) 2⟩

/-- C6 (amended): the `"wrong shares"` assertion of `recover` fails exactly
when the number of supplied shares differs from `t`; with exactly `t`
shares the count check passes.  (The original claim's "if and only if"
reading of recovery failure is refuted by the counterexample: with exactly
`t` shares but a duplicated index, `recover` still fails — via the gcd
assertion, not the count check.) -/
theorem C6_share_count_check (ss : SecretShare) (shares : List (Nat × Int)) :
    ss.recover shares = .error .wrongShares ↔ shares.length ≠ ss.t := by
  constructor
  · intro h hlen
    unfold SecretShare.recover at h
    rw [if_pos hlen] at h
    rcases hcase : ss.lagrange_interpolation 0 (shares.map Prod.fst)
      (shares.map Prod.snd) with _ | r
    · rw [hcase] at h
      injection h with h'
      cases h'
    · rw [hcase] at h
      cases h
  · intro h
    unfold SecretShare.recover
    rw [if_neg h]

/-- C6 counterexample: a share list of length exactly `t = 2` on which
`recover` nevertheless fails (duplicate index), refuting "recover fails iff
the count differs from `t`". -/
theorem C6_counterexample :
    ([((1 : Nat), (0 : Int)), (1, 0)]).length = (⟨2, 3, 5⟩ : SecretShare).t ∧
      (⟨2, 3, 5⟩ : SecretShare).recover [(1, 0), (1, 0)] = .error .gcdNotOne :=
  ⟨rfl, rfl⟩

/-- C7: if two of the `t` shares passed to `recover` carry the same index,
the corresponding Lagrange denominator product is exactly zero, `mod_inv 0`
fails its gcd-equals-one assertion (`xgcd(0, p)` returns gcd `p ≠ 1`), and
`recover` aborts with that error — the duplicate is never silently
handled. -/
theorem C7_duplicate_index_fatal {ss : SecretShare} {P : Nat}
    (hp : ss.p = (P : Int)) (hP : P.Prime) {shares : List (Nat × Int)}
    (hlen : shares.length = ss.t) {i j : Nat} (hi : i < shares.length)
    (hj : j < shares.length) (hij : i ≠ j)
    (hdup : (shares[i]).1 = (shares[j]).1) :
    ss.denomTerm (shares.map Prod.fst) i = 0 ∧
      (xgcd 0 ss.p).1 = ss.p ∧ ss.mod_inv 0 = none ∧
      ss.recover shares = .error .gcdNotOne := by
  have hp0 : 0 < ss.p := by
    rw [hp]
    exact_mod_cast hP.pos
  have hxlen : (shares.map Prod.fst).length = shares.length := List.length_map _ _
  have hgetD : ∀ k (hk : k < shares.length),
      (shares.map Prod.fst).getD k 0 = (shares[k]).1 := by
    intro k hk
    rw [List.getD_eq_getElem _ _ (by rwa [hxlen]), List.getElem_map]
  refine ⟨?_, ?_, mod_inv_zero hp hP.two_le, recover_duplicate hp hP.two_le hlen hi hj hij hdup⟩
  · apply denomTerm_eq_zero (Ne.symm hij) (by rwa [hxlen])
    rw [hgetD i hi, hgetD j hj]
    exact hdup
  · obtain ⟨hgv, _, _⟩ := xgcd_spec (le_refl (0 : Int)) hp0
    rw [hgv, Int.gcd_zero_left]
    exact Int.natAbs_of_nonneg (le_of_lt hp0)

theorem C7_duplicate_index_fatal_witness :
    (⟨2, 3, 5⟩ : SecretShare).denomTerm [1, 1] 0 = 0 ∧
      (xgcd 0 (⟨2, 3, 5⟩ : SecretShare).p).1 = (⟨2, 3, 5⟩ : SecretShare).p ∧
      (⟨2, 3, 5⟩ : SecretShare).mod_inv 0 = none ∧
      (⟨2, 3, 5⟩ : SecretShare).recover [(1, 0), (1, 0)] = .error .gcdNotOne :=
  C7_duplicate_index_fatal
    (show (⟨2, 3, 5⟩ : SecretShare).p = ((5 : Nat) : Int) from rfl) (by norm_num)
    (show ([((1 : Nat), (0 : Int)), (1, 0)]).length = (⟨2, 3, 5⟩ : SecretShare).t
      from rfl)
    (show (0 : Nat) < 2 by decide) (show (1 : Nat) < 2 by decide)
    (by decide) rfl

/-- C8 (amended): for `p` prime, nodes below `2^63` that are pairwise
distinct mod `p`, and `ys` values in `[0, p-1]`, interpolating at the
sample x-coordinate `xs[k]` succeeds and returns a raw value in `(-p, p)`
that is congruent to `ys[k]`; the recover-style normalization (add `p` if
negative) makes it exactly `ys[k]`.  (The original claim demanded the raw
result be exactly `ys[k]`; the raw result can be negative — see the
counterexample.) -/
theorem C8_lagrange_identity_normalized {ss : SecretShare} {P : Nat}
    (hp : ss.p = (P : Int)) (hP : P.Prime) {xs : List Nat} {ys : List Int}
    (hylen : ys.length = xs.length) (h63 : ∀ k ∈ xs, k < 2 ^ 63)
    (hnodup : (xs.map fun k : Nat => ((k : Nat) : ZMod P)).Nodup)
    (hyrange : ∀ y ∈ ys, 0 ≤ y ∧ y < ss.p) {k : Nat} (hk : k < xs.length) :
    ∃ r, ss.lagrange_interpolation ((xs[k] : Nat) : Int) xs ys = some r ∧
      -ss.p < r ∧ r < ss.p ∧ (if r < 0 then r + ss.p else r) = ys.getD k 0 := by
  haveI : Fact (Nat.Prime P) := ⟨hP⟩
  have hnode : ∀ i (hi : i < xs.length),
      SecretShare.nodeOf xs i = ((xs[i] : Nat) : Int) := by
    intro i hi
    unfold SecretShare.nodeOf
    rw [List.getD_eq_getElem _ _ hi]
    exact as_i64_small (h63 _ (List.getElem_mem hi))
  have hinj : ∀ i < xs.length, ∀ j < xs.length,
      ((SecretShare.nodeOf xs i : Int) : ZMod P) =
        ((SecretShare.nodeOf xs j : Int) : ZMod P) → i = j := by
    intro i hi j hj hij
    rw [hnode i hi, hnode j hj] at hij
    have hinj' := List.nodup_iff_injective_getElem.mp hnodup
    have hmlen : (xs.map fun m : Nat => ((m : Nat) : ZMod P)).length = xs.length :=
      List.length_map _ _
    have hib : i < (xs.map fun m : Nat => ((m : Nat) : ZMod P)).length := by
      rwa [hmlen]
    have hjb : j < (xs.map fun m : Nat => ((m : Nat) : ZMod P)).length := by
      rwa [hmlen]
    have h1 : (xs.map fun m : Nat => ((m : Nat) : ZMod P))[i] =
        (xs.map fun m : Nat => ((m : Nat) : ZMod P))[j] := by
      rw [List.getElem_map, List.getElem_map]
      exact_mod_cast hij
    have h2 : (⟨i, hib⟩ :
        Fin (xs.map fun m : Nat => ((m : Nat) : ZMod P)).length) =
        ⟨j, hjb⟩ := hinj' h1
    simpa using congrArg Fin.val h2
  have hvs : Set.InjOn (fun i => ((SecretShare.nodeOf xs i : Int) : ZMod P))
      (Finset.range xs.length) := by
    intro i hi j hj hij
    simp only [Finset.coe_range, Set.mem_Iio] at hi hj
    exact hinj i hi j hj hij
  have hdeg : (Lagrange.interpolate (Finset.range xs.length)
      (fun i => ((SecretShare.nodeOf xs i : Int) : ZMod P))
      fun i => ((ys.getD i 0 : Int) : ZMod P)).degree < (xs.length : ℕ) := by
    have h := Lagrange.degree_interpolate_lt
      (fun i => ((ys.getD i 0 : Int) : ZMod P)) hvs
    rwa [Finset.card_range] at h
  have hy : ∀ i < xs.length,
      ((ys.getD i 0 : Int) : ZMod P) =
        (Lagrange.interpolate (Finset.range xs.length)
          (fun i => ((SecretShare.nodeOf xs i : Int) : ZMod P))
          fun i => ((ys.getD i 0 : Int) : ZMod P)).eval
          ((SecretShare.nodeOf xs i : Int) : ZMod P) := by
    intro i hi
    exact (Lagrange.eval_interpolate_at_node (fun i => ((ys.getD i 0 : Int) : ZMod P))
      hvs (Finset.mem_range.mpr hi)).symm
  obtain ⟨r, hr1, hr2, hr3, hr4⟩ := lagrange_eval hp hP ((xs[k] : Nat) : Int)
    xs ys _ hdeg hinj hy
  have hyk : 0 ≤ ys.getD k 0 ∧ ys.getD k 0 < ss.p := by
    have hk2 : k < ys.length := by
      rw [hylen]
      exact hk
    rw [List.getD_eq_getElem _ _ hk2]
    exact hyrange _ (List.getElem_mem hk2)
  refine ⟨r, hr1, hr2, hr3, ?_⟩
  have hb := normalize_range hr2 hr3
  apply int_eq_of_cast_eq hp hb.1 hb.2 hyk.1 hyk.2
  rw [normalize_cast hp, hr4, ← hnode k hk]
  exact (hy k hk).symm

/-- C8 counterexample: `p = 5`, nodes `xs = [1, 2]` (distinct, prime
modulus), values `ys = [2, 0]` in `[0, 4]`; interpolating at the node
`xs[0] = 1` returns the raw value `-3`, which is congruent to `ys[0] = 2`
mod `5` but is not the exact y-coordinate. -/
theorem C8_counterexample :
    Nat.Prime 5 ∧
      (⟨2, 3, 5⟩ : SecretShare).lagrange_interpolation 1 [1, 2] [2, 0] =
        some (-3) ∧ (-3 : Int) ≠ 2 :=
  ⟨by norm_num, rfl, by decide⟩

theorem C8_lagrange_identity_normalized_witness :
    ∃ r, (⟨2, 3, 7⟩ : SecretShare).lagrange_interpolation
        ((([1, 2] : List Nat)[0] : Nat) : Int) [1, 2] [2, 0] = some r ∧
      -(⟨2, 3, 7⟩ : SecretShare).p < r ∧ r < (⟨2, 3, 7⟩ : SecretShare).p ∧
      (if r < 0 then r + (⟨2, 3, 7⟩ : SecretShare).p else r) =
        ([2, 0] : List Int).getD 0 0 :=
  C8_lagrange_identity_normalized
    (show (⟨2, 3, 7⟩ : SecretShare).p = ((7 : Nat) : Int) from rfl) (by norm_num)
    rfl (by decide) (by decide) (by decide)
    (show (0 : Nat) < ([1, 2] : List Nat).length by decide)

/-- C9: `split` never checks the secret against `p`: for any non-negative
secret (also `s ≥ p`) it succeeds whenever `1 ≤ t < n`, and recovering any
admissible size-`t` selection of the shares returns `s mod p` — so for
`s ≥ p` the round-trip does not return the original secret. -/
theorem C9_secret_not_reduced {ss : SecretShare} {P : Nat}
    (hp : ss.p = (P : Int)) (hP : P.Prime) {s : Int} (hs0 : 0 ≤ s)
    (ht1 : 1 ≤ ss.t) (htn : ss.t < ss.n) (draws : Nat → Nat) :
    (∃ shares, ss.split s draws = some shares) ∧
      (∀ shares, ss.split s draws = some shares →
        ∀ sub : List (Nat × Int), (∀ q ∈ sub, q ∈ shares) →
          sub.length = ss.t → (∀ q ∈ sub, q.1 < 2 ^ 63) →
          (sub.map fun q => ((q.1 : Nat) : ZMod P)).Nodup →
          ss.recover sub = .ok (s % ss.p)) ∧
      (ss.p ≤ s → s % ss.p ≠ s) := by
  have hp0 : 0 < ss.p := by
    rw [hp]
    exact_mod_cast hP.pos
  refine ⟨?_, ?_, ?_⟩
  · refine ⟨ss.evaluate_polynomial (s :: (List.range (ss.t - 1)).map
      fun i => gen_bigint_range 0 (ss.p - 1) (draws i)), ?_⟩
    unfold SecretShare.split SecretShare.sample_polynomial
    rw [if_pos htn, usize_sub_one ht1]
    rfl
  · intro shares hsplit sub hsub hlen h63 hnodup
    obtain ⟨htn2, c, hsamp, hsh⟩ := split_spec hsplit
    obtain ⟨_, hclen, hcform⟩ := sample_polynomial_spec hsamp
    have h1 : c.length ≤ sub.length := by omega
    have h2 : ∀ q ∈ sub, q.2 = ss.mod_evaluate_at c q.1 := by
      intro q hq
      have hq' := hsub q hq
      rw [hsh] at hq'
      exact (evaluate_polynomial_mem hq').1
    have hv0 : 0 ≤ s % ss.p := Int.emod_nonneg s (ne_of_gt hp0)
    have hvp : s % ss.p < ss.p := Int.emod_lt_of_pos s hp0
    have h3 : ((s % ss.p : Int) : ZMod P) =
        (polyOfCoeffs (c.map fun a : Int => ((a : Int) : ZMod P))).eval 0 := by
      have hc : ((s % ss.p : Int) : ZMod P) = ((s : Int) : ZMod P) :=
        cast_int_eq_of_dvd hp ⟨-(s / ss.p), by rw [Int.emod_def]; ring⟩
      rw [hc, hcform, List.map_cons, polyOfCoeffs_eval_zero]
    exact recover_eval hp hP hlen h1 h63 hnodup h2 hv0 hvp h3
  · intro hps heq
    have h := Int.emod_lt_of_pos s hp0
    rw [heq] at h
    linarith

theorem C9_secret_not_reduced_witness :
    (∃ shares, (⟨2, 3, 5⟩ : SecretShare).split 7 (fun _ => 0) = some shares) ∧
      (∀ shares, (⟨2, 3, 5⟩ : SecretShare).split 7 (fun _ => 0) = some shares →
        ∀ sub : List (Nat × Int), (∀ q ∈ sub, q ∈ shares) →
          sub.length = (⟨2, 3, 5⟩ : SecretShare).t → (∀ q ∈ sub, q.1 < 2 ^ 63) →
          (sub.map fun q => ((q.1 : Nat) : ZMod 5)).Nodup →
          (⟨2, 3, 5⟩ : SecretShare).recover sub =
            .ok ((7 : Int) % (⟨2, 3, 5⟩ : SecretShare).p)) ∧
      ((⟨2, 3, 5⟩ : SecretShare).p ≤ 7 →
        (7 : Int) % (⟨2, 3, 5⟩ : SecretShare).p ≠ 7) :=
  C9_secret_not_reduced
    (show (⟨2, 3, 5⟩ : SecretShare).p = ((5 : Nat) : Int) from rfl) (by norm_num)
    (by decide) (by decide) (by decide) (fun _ => 0)

/-- C10: the requirement `t ≥ 1` is never checked: with `t = 0` and
`n > 0` the only precondition of `split` (`t < n`) passes, and
`sample_polynomial` then computes `self.t - 1` on `usize`, which
underflows — a panic in debug builds (modelled by the checked subtraction
returning nothing) and a wraparound to `2^64 - 1` in release builds —
instead of surfacing a configuration error. -/
theorem C10_threshold_zero_underflow {ss : SecretShare} (ht : ss.t = 0)
    (hn : 0 < ss.n) (secret : Int) (draws : Nat → Nat) :
    ss.t < ss.n ∧ usize_sub ss.t 1 = none ∧
      ss.sample_polynomial secret draws = none ∧
      ss.split secret draws = none ∧ usize_wrap_sub ss.t 1 = 2 ^ 64 - 1 := by
  have h1 : ss.t < ss.n := by omega
  have h2 : usize_sub ss.t 1 = none := by
    unfold usize_sub
    rw [if_neg (by omega)]
  have h3 : ss.sample_polynomial secret draws = none := by
    unfold SecretShare.sample_polynomial
    rw [h2]
    rfl
  refine ⟨h1, h2, h3, ?_, ?_⟩
  · unfold SecretShare.split
    rw [if_pos h1, h3]
    rfl
  · rw [ht]
    decide

theorem C10_threshold_zero_underflow_witness :
    (⟨0, 3, 7⟩ : SecretShare).t < (⟨0, 3, 7⟩ : SecretShare).n ∧
      usize_sub (⟨0, 3, 7⟩ : SecretShare).t 1 = none ∧
      (⟨0, 3, 7⟩ : SecretShare).sample_polynomial 2 (fun _ => 0) = none ∧
      (⟨0, 3, 7⟩ : SecretShare).split 2 (fun _ => 0) = none ∧
      usize_wrap_sub (⟨0, 3, 7⟩ : SecretShare).t 1 = 2 ^ 64 - 1 :=
  C10_threshold_zero_underflow rfl (by decide) 2 (fun _ => 0)

/-- C9 counterexample: the round trip to `s mod p` also needs the selected
indices to be distinct mod `p`: with `t = 2 < n = 8`, `p = 7` and secret
`9 ≥ p`, `split` succeeds, but recovering shares `1` and `8` (distinct
indices, congruent mod `7`) aborts instead of returning `9 mod 7 = 2`. -/
theorem C9_counterexample :
    (⟨2, 8, 7⟩ : SecretShare).split 9 (fun _ => 0) =
        some [(1, 2), (2, 2), (3, 2), (4, 2), (5, 2), (6, 2), (7, 2), (8, 2)] ∧
      (⟨2, 8, 7⟩ : SecretShare).recover [(1, 2), (8, 2)] = .error .gcdNotOne :=
  ⟨rfl, rfl⟩
